import Mathlib

/-!
Shallow embedding of `semver.go` (package `semver`, v0.3.0).

Go strings are modelled as lists of characters (`Str`).  All inputs of
interest are ASCII, where Go's byte-level operations (indexing, slicing,
lexicographic comparison) coincide with the character-level operations
used here; for non-ASCII text UTF-8 byte order equals code-point order,
so the lexicographic comparisons also agree.

A Go function that can panic (an out-of-range slice) is modelled with an
`Option` result: `none` models the panic.
-/

abbrev Str := List Char

/-- Convenience conversion from Lean string literals to the `Str` model. -/
def str (s : String) : Str := s.data

/-- `\d` of the Go regexes: an ASCII digit, bytes 48..57. -/
def isDigitCh (c : Char) : Bool := decide (48 ≤ c.toNat ∧ c.toNat ≤ 57)

/-- The character class `[0-9A-Za-z-]` of the Go regex `rxMatch`
(pre-release and build identifiers). -/
def isIdChar (c : Char) : Bool :=
  isDigitCh c || decide (65 ≤ c.toNat ∧ c.toNat ≤ 90) ||
    decide (97 ≤ c.toNat ∧ c.toNat ≤ 122) || decide (c.toNat = 45)

/-- The numeric-field grammar `(0|[1-9]\d*)` of `rxMatch` (semver.go line
51): the literal `0`, or a digit sequence starting with `1`..`9`. -/
def isNum : Str → Bool
  | [] => false
  | c :: cs =>
    if c = '0' then decide (cs = [])
    else decide (49 ≤ c.toNat ∧ c.toNat ≤ 57) && cs.all isDigitCh

/-- One pre-release identifier of `rxMatch` (semver.go line 51):
`0|[1-9]\d*|\d*[a-zA-Z-][a-zA-Z0-9-]*`.  A string over `[0-9A-Za-z-]`
matches the third alternative exactly when it is non-empty and contains a
non-digit (the digits before its first non-digit supply the `\d*` part),
so the whole alternation is: non-empty, drawn from `[0-9A-Za-z-]`, and if
purely numeric then with no leading zero. -/
def isPreId (s : Str) : Bool :=
  decide (s ≠ []) && s.all isIdChar && (!s.all isDigitCh || isNum s)

/-- One build identifier of `rxMatch` (semver.go line 51):
`[0-9A-Za-z-]+`. -/
def isBuildId (s : Str) : Bool := decide (s ≠ []) && s.all isIdChar

/-- Model of Go `strings.Index(base, mark) > -1` followed by the slices
`base[:i]` / `base[i+1:]` of `extractor` (semver.go lines 83-87): split
at the first occurrence of the (single-character) delimiter.  `none`
models the Go panic `base[:-1]` taken when the delimiter is absent. -/
def extractor : Str → Char → Option (Str × Str)
  | [], _ => none
  | c :: cs, m =>
    if c = m then some ([], cs)
    else (extractor cs m).map fun lr => (c :: lr.1, lr.2)

/-- Model of Go `strings.Split(s, sep)` for a single-character separator
(used on `"."` in `edgierThan`, semver.go lines 147-148): `Split("", ".")
= [""]`, and every separator occurrence starts a new piece. -/
def stringsSplit (sep : Char) : Str → List Str
  | [] => [[]]
  | c :: cs =>
    if c = sep then [] :: stringsSplit sep cs
    else
      match stringsSplit sep cs with
      | [] => [[c]]
      | t :: ts => (c :: t) :: ts

/-- `id(\.id)*` for an identifier predicate `f`: every dot-separated
piece satisfies `f`.  Pieces produced by `stringsSplit` never contain the
dot and rejoin to the input, so this decides the regex sub-grammar. -/
def validDotted (f : Str → Bool) (s : Str) : Bool := (stringsSplit '.' s).all f

/-- The `(0|[1-9]\d*)\.(0|[1-9]\d*)\.(0|[1-9]\d*)` core of `rxMatch`.
Major and minor end at the first and second dot (numeric fields contain
no dot); the patch check `isNum` rules out any further dot. -/
def validCore (s : Str) : Bool :=
  match extractor s '.' with
  | none => false
  | some mj =>
    match extractor mj.2 '.' with
    | none => false
    | some mp => isNum mj.1 && isNum mp.1 && isNum mp.2

/-- The core plus the optional `-` pre-release part of `rxMatch`.  The
core contains only digits and dots, so in any match the first `-` is
exactly the pre-release delimiter. -/
def validCorePre (s : Str) : Bool :=
  match extractor s '-' with
  | none => validCore s
  | some lr => validCore lr.1 && validDotted isPreId lr.2

/-- `IsValid` (semver.go lines 180-182): anchored match of the full
`rxMatch` regex (line 51).  `+` occurs in no identifier class, so in any
match the first `+` is exactly the build delimiter; splitting there and
checking the two halves decides the regex. -/
def IsValid (s : Str) : Bool :=
  match extractor s '+' with
  | none => validCorePre s
  | some lr => validCorePre lr.1 && validDotted isBuildId lr.2

/-- `rxNumeric` (semver.go line 52): `^(0|[1-9])+$`, i.e. one or more
ASCII digits. -/
def rxNumericMatch (s : Str) : Bool := decide (s ≠ []) && s.all isDigitCh

/-- Go's lexicographic (bytewise) string order `a < b`, used by
`OlderThan`/`NewerThan`/`edgierThan` on the stored string fields. -/
def goStrLt : Str → Str → Bool
  | [], [] => false
  | [], _ :: _ => true
  | _ :: _, [] => false
  | a :: as, b :: bs =>
    if a.toNat < b.toNat then true
    else if b.toNat < a.toNat then false
    else goStrLt as bs

/-- The struct `Semver` (semver.go lines 23-25): all five fields are Go
strings. -/
structure Semver where
  major : Str
  minor : Str
  patch : Str
  pre : Str
  build : Str
deriving DecidableEq

/-- `ConvertToString` (semver.go lines 55-64): join major/minor/patch
with dots, append `-pre` when the pre-release string is non-empty, then
`+build` when the build string is non-empty. -/
def Semver.ConvertToString (ver : Semver) : Str :=
  let version := ver.major ++ '.' :: ver.minor ++ '.' :: ver.patch
  let version2 := if 0 < ver.pre.length then version ++ '-' :: ver.pre else version
  if 0 < ver.build.length then version2 ++ '+' :: ver.build else version2

/-- The guarded `+` split of `ConStructor` (semver.go lines 71-73): the
part of `version` before the first `+`, or all of it when there is no
`+`. -/
def beforePlus (version : Str) : Str :=
  match extractor version '+' with
  | some lr => lr.1
  | none => version

/-- The build-metadata half of the guarded `+` split of `ConStructor`
(semver.go lines 71-73); empty when there is no `+`. -/
def afterPlus (version : Str) : Str :=
  match extractor version '+' with
  | some lr => lr.2
  | none => []

/-- `ConStructor` after the `+` split (semver.go lines 74-79): the
guarded `-` split into (core, pre-release), then the two unguarded `.`
extractions producing major, minor and patch.  A missing dot makes
`extractor` panic in Go (`none` here). -/
def conStructorAux (ver bld : Str) : Option Semver :=
  let vr : Str × Str :=
    match extractor ver '-' with
    | some lr => lr
    | none => (ver, [])
  match extractor vr.1 '.' with
  | none => none
  | some mj =>
    match extractor mj.2 '.' with
    | none => none
    | some mp =>
      some { major := mj.1, minor := mp.1, patch := mp.2, pre := vr.2, build := bld }

/-- `ConStructor` (semver.go lines 68-80). -/
def ConStructor (version : Str) : Option Semver :=
  conStructorAux (beforePlus version) (afterPlus version)

/-- `OlderThan` (semver.go lines 91-109).  Field comparisons are Go
string comparisons.  The `a.patch == b.patch` branch of the source holds
only the comment `// Compare pre-release` and no code, so control falls
to the final `return false`. -/
def Semver.OlderThan (a b : Semver) : Bool :=
  if goStrLt a.major b.major then true
  else if a.major = b.major then
    if goStrLt a.minor b.minor then true
    else if a.minor = b.minor then
      if goStrLt a.patch b.patch then true
      else false
    else false
  else false

/-- The `for key := range ed` loop of `edgierThan` (semver.go lines
149-172) over the dot-split identifier lists.  When both identifiers are
digit strings and differ, the longer wins, equal lengths falling to the
bytewise scan (`goStrLt g e`, the first differing byte deciding; the
guard `e ≠ g` guarantees a differing byte exists at equal lengths).
Otherwise a difference is settled by plain Go string `>`. -/
def edgeLoop : List Str → List Str → Bool
  | [], _ => false
  | _ :: _, [] => true
  | e :: es, g :: gs =>
    if rxNumericMatch e = true ∧ rxNumericMatch g = true ∧ e ≠ g then
      if g.length < e.length then true
      else if e.length < g.length then false
      else goStrLt g e
    else if e ≠ g then goStrLt g e
    else edgeLoop es gs

/-- `edgierThan` (semver.go lines 142-174): when either pre-release
string is empty the Go string order of the two pre-release strings
decides; otherwise the loop over the dot-split identifier lists. -/
def Semver.edgierThan (a b : Semver) : Bool :=
  if a.pre.length = 0 ∨ b.pre.length = 0 then goStrLt a.pre b.pre
  else edgeLoop (stringsSplit '.' a.pre) (stringsSplit '.' b.pre)

/-- `NewerThan` (semver.go lines 113-131). -/
def Semver.NewerThan (a b : Semver) : Bool :=
  if goStrLt b.major a.major then true
  else if a.major = b.major then
    if goStrLt b.minor a.minor then true
    else if a.minor = b.minor then
      if goStrLt b.patch a.patch then true
      else if a.patch = b.patch then a.edgierThan b
      else false
    else false
  else false

/-- `EquivalentTo` (semver.go lines 134-139). -/
def Semver.EquivalentTo (a b : Semver) : Bool :=
  if a.OlderThan b || a.NewerThan b then false else true

/-- `Increment` (semver.go lines 184-186): the body is literally
`return ""`. -/
def Increment (version bump : Str) : Str := []

/-- `IsNewer` (semver.go lines 189-196): validate both strings, then
parse and compare; `false` when either input is invalid. -/
def IsNewer (check base : Str) : Option Bool :=
  if IsValid check && IsValid base then
    (ConStructor check).bind fun a => (ConStructor base).map fun b => a.NewerThan b
  else some false

/-- The integer denoted by a digit string (most significant digit
first), used to state the numeric-identifier comparison rule. -/
def numVal : Str → Nat
  | [] => 0
  | c :: cs => (c.toNat - 48) * 10 ^ cs.length + numVal cs

/-! Helper lemmas -/

theorem extractor_eq {s l r : Str} {c : Char} (h : extractor s c = some (l, r)) :
    s = l ++ c :: r := by
  induction s generalizing l r with
  | nil => simp [extractor] at h
  | cons a as ih =>
    by_cases hac : a = c
    · subst hac
      simp [extractor] at h
      obtain ⟨h1, h2⟩ := h
      subst h1
      subst h2
      rfl
    · simp only [extractor, if_neg hac] at h
      cases hx : extractor as c with
      | none => rw [hx] at h; simp at h
      | some lr =>
        rw [hx] at h
        simp only [Option.map_some', Option.some.injEq, Prod.mk.injEq] at h
        obtain ⟨h1, h2⟩ := h
        subst h1
        subst h2
        have := ih hx
        simp [this]

theorem goStrLt_irrefl (s : Str) : goStrLt s s = false := by
  induction s with
  | nil => rfl
  | cons c cs ih => simp [goStrLt, ih]

theorem edgeLoop_cons_same (z : Str) (xs ys : List Str) :
    edgeLoop (z :: xs) (z :: ys) = edgeLoop xs ys := by
  simp [edgeLoop]

theorem edgeLoop_append (p x y : List Str) :
    edgeLoop (p ++ x) (p ++ y) = edgeLoop x y := by
  induction p with
  | nil => rfl
  | cons z p ih => rw [List.cons_append, List.cons_append, edgeLoop_cons_same, ih]

theorem validDotted_ne_nil {f : Str → Bool} (hf : f [] = false) {s : Str}
    (h : validDotted f s = true) : s ≠ [] := by
  intro hs
  subst hs
  simp [validDotted, stringsSplit, hf] at h

theorem isNum_digits {s : Str} (h : isNum s = true) :
    s ≠ [] ∧ s.all isDigitCh = true := by
  cases s with
  | nil => simp [isNum] at h
  | cons c cs =>
    refine ⟨by simp, ?_⟩
    by_cases hc : c = '0'
    · subst hc
      simp [isNum] at h
      subst h
      decide
    · simp only [isNum, if_neg hc, Bool.and_eq_true, decide_eq_true_eq] at h
      simp only [List.all_cons, Bool.and_eq_true]
      exact ⟨by simp [isDigitCh]; omega, h.2⟩

theorem numVal_lt_pow {s : Str} (h : s.all isDigitCh = true) :
    numVal s < 10 ^ s.length := by
  induction s with
  | nil => simp [numVal]
  | cons c cs ih =>
    simp only [List.all_cons, Bool.and_eq_true] at h
    have hc : c.toNat - 48 ≤ 9 := by
      have := h.1
      simp [isDigitCh] at this
      omega
    have ht := ih h.2
    simp only [numVal, List.length_cons, pow_succ]
    calc (c.toNat - 48) * 10 ^ cs.length + numVal cs
        ≤ 9 * 10 ^ cs.length + numVal cs := by
          exact Nat.add_le_add_right (Nat.mul_le_mul_right _ hc) _
      _ < 9 * 10 ^ cs.length + 10 ^ cs.length := by omega
      _ = 10 ^ cs.length * 10 := by ring

theorem numVal_lt_of_shorter {s t : Str} (hs : isNum s = true) (ht : isNum t = true)
    (h : s.length < t.length) : numVal s < numVal t := by
  obtain ⟨hsne, hsd⟩ := isNum_digits hs
  cases t with
  | nil => simp at h
  | cons d ds =>
    have hds : ds ≠ [] := by
      cases s with
      | nil => exact absurd rfl hsne
      | cons a as =>
        cases ds with
        | nil => simp at h
        | cons => simp
    have hd : 49 ≤ d.toNat := by
      by_cases hd0 : d = '0'
      · subst hd0
        simp [isNum] at ht
        exact absurd ht hds
      · simp only [isNum, if_neg hd0, Bool.and_eq_true, decide_eq_true_eq] at ht
        exact ht.1.1
    have h1 : numVal s < 10 ^ s.length := numVal_lt_pow hsd
    have h2 : 10 ^ s.length ≤ 10 ^ ds.length := by
      apply Nat.pow_le_pow_right (by norm_num)
      simp only [List.length_cons] at h
      omega
    have h3 : 10 ^ ds.length ≤ (d.toNat - 48) * 10 ^ ds.length := by
      have : 1 ≤ d.toNat - 48 := by omega
      calc 10 ^ ds.length = 1 * 10 ^ ds.length := by ring
        _ ≤ (d.toNat - 48) * 10 ^ ds.length := Nat.mul_le_mul_right _ this
    simp only [numVal]
    omega

theorem goStrLt_digits {s t : Str} (hl : s.length = t.length)
    (hs : s.all isDigitCh = true) (ht : t.all isDigitCh = true) :
    goStrLt s t = decide (numVal s < numVal t) := by
  induction s generalizing t with
  | nil =>
    cases t with
    | nil => simp [goStrLt, numVal]
    | cons => simp at hl
  | cons c cs ih =>
    cases t with
    | nil => simp at hl
    | cons d ds =>
      simp only [List.length_cons, Nat.add_right_cancel_iff] at hl
      simp only [List.all_cons, Bool.and_eq_true] at hs ht
      have hc48 : 48 ≤ c.toNat ∧ c.toNat ≤ 57 := by
        have := hs.1; simp [isDigitCh] at this; exact this
      have hd48 : 48 ≤ d.toNat ∧ d.toNat ≤ 57 := by
        have := ht.1; simp [isDigitCh] at this; exact this
      have hvs : numVal cs < 10 ^ ds.length := hl ▸ numVal_lt_pow hs.2
      have hvt : numVal ds < 10 ^ ds.length := numVal_lt_pow ht.2
      by_cases hcd : c.toNat < d.toNat
      · have hlt : numVal (c :: cs) < numVal (d :: ds) := by
          simp only [numVal, hl]
          have step : (c.toNat - 48 + 1) * 10 ^ ds.length ≤ (d.toNat - 48) * 10 ^ ds.length :=
            Nat.mul_le_mul_right _ (by omega)
          calc (c.toNat - 48) * 10 ^ ds.length + numVal cs
              < (c.toNat - 48) * 10 ^ ds.length + 10 ^ ds.length := by omega
            _ = (c.toNat - 48 + 1) * 10 ^ ds.length := by ring
            _ ≤ (d.toNat - 48) * 10 ^ ds.length := step
            _ ≤ (d.toNat - 48) * 10 ^ ds.length + numVal ds := Nat.le_add_right _ _
        simp [goStrLt, hcd, hlt]
      · by_cases hdc : d.toNat < c.toNat
        · have hge : numVal (d :: ds) < numVal (c :: cs) := by
            simp only [numVal, hl]
            have step : (d.toNat - 48 + 1) * 10 ^ ds.length ≤ (c.toNat - 48) * 10 ^ ds.length :=
              Nat.mul_le_mul_right _ (by omega)
            calc (d.toNat - 48) * 10 ^ ds.length + numVal ds
                < (d.toNat - 48) * 10 ^ ds.length + 10 ^ ds.length := by omega
              _ = (d.toNat - 48 + 1) * 10 ^ ds.length := by ring
              _ ≤ (c.toNat - 48) * 10 ^ ds.length := step
              _ ≤ (c.toNat - 48) * 10 ^ ds.length + numVal cs := Nat.le_add_right _ _
          have : ¬ numVal (c :: cs) < numVal (d :: ds) := by omega
          simp [goStrLt, hcd, hdc, this]
        · have hce : c.toNat = d.toNat := by omega
          have hiff : numVal (c :: cs) < numVal (d :: ds) ↔ numVal cs < numVal ds := by
            simp only [numVal, hl, hce]
            omega
          simp only [goStrLt, if_neg hcd, if_neg hdc, ih hl hs.2 ht.2]
          simp [hiff]

theorem olderThan_of_eq_core {a b : Semver} (h1 : a.major = b.major)
    (h2 : a.minor = b.minor) (h3 : a.patch = b.patch) : a.OlderThan b = false := by
  simp [Semver.OlderThan, h1, h2, h3, goStrLt_irrefl]

theorem newerThan_of_eq_core {a b : Semver} (h1 : a.major = b.major)
    (h2 : a.minor = b.minor) (h3 : a.patch = b.patch) :
    a.NewerThan b = a.edgierThan b := by
  simp [Semver.NewerThan, h1, h2, h3, goStrLt_irrefl]

theorem edgierThan_of_eq_pre {a b : Semver} (h : a.pre = b.pre) :
    a.edgierThan b = false := by
  unfold Semver.edgierThan
  rw [h]
  by_cases hb : b.pre.length = 0
  · simp [hb, goStrLt_irrefl]
  · rw [if_neg (by simp [hb])]
    simpa using edgeLoop_append (stringsSplit '.' b.pre) [] []

theorem edgeLoop_cons_numeric {e g : Str} {es gs : List Str}
    (he : isNum e = true) (hg : isNum g = true) (hne : e ≠ g) :
    edgeLoop (e :: es) (g :: gs) = decide (numVal g < numVal e) := by
  obtain ⟨hene, hed⟩ := isNum_digits he
  obtain ⟨hgne, hgd⟩ := isNum_digits hg
  have hrxe : rxNumericMatch e = true := by simp [rxNumericMatch, hene, hed]
  have hrxg : rxNumericMatch g = true := by simp [rxNumericMatch, hgne, hgd]
  show (if rxNumericMatch e = true ∧ rxNumericMatch g = true ∧ e ≠ g then
      if g.length < e.length then true
      else if e.length < g.length then false
      else goStrLt g e
    else if e ≠ g then goStrLt g e
    else edgeLoop es gs) = decide (numVal g < numVal e)
  rw [if_pos ⟨hrxe, hrxg, hne⟩]
  rcases Nat.lt_trichotomy g.length e.length with hlt | heq | hgt
  · rw [if_pos hlt]
    have := numVal_lt_of_shorter hg he hlt
    simp [this]
  · rw [if_neg (by omega), if_neg (by omega)]
    exact goStrLt_digits heq hgd hed
  · rw [if_neg (by omega), if_pos hgt]
    have := numVal_lt_of_shorter he hg hgt
    simp
    omega

theorem validCore_spec {l : Str} (h : validCore l = true) :
    ∃ m n p, extractor l '.' = some (m, n ++ '.' :: p) ∧
      extractor (n ++ '.' :: p) '.' = some (n, p) ∧
      isNum m = true ∧ isNum n = true ∧ isNum p = true ∧
      l = m ++ '.' :: n ++ '.' :: p := by
  cases h1 : extractor l '.' with
  | none => simp [validCore, h1] at h
  | some mj =>
    cases h2 : extractor mj.2 '.' with
    | none => simp [validCore, h1, h2] at h
    | some mp =>
      simp only [validCore, h1, h2, Bool.and_eq_true] at h
      obtain ⟨⟨hm, hn⟩, hp⟩ := h
      have e2 : mj.2 = mp.1 ++ '.' :: mp.2 := extractor_eq h2
      refine ⟨mj.1, mp.1, mp.2, ?_, ?_, hm, hn, hp, ?_⟩
      · rw [← e2]
      · rw [← e2]
        exact h2
      · have e1 : l = mj.1 ++ '.' :: mj.2 := extractor_eq h1
        rw [e1, e2]
        simp

theorem conStructorAux_render {l bld : Str} (hl : validCorePre l = true) :
    ∃ v, conStructorAux l bld = some v ∧
      v.ConvertToString = (if 0 < bld.length then l ++ '+' :: bld else l) ∧
      v.build = bld := by
  cases h1 : extractor l '-' with
  | none =>
    simp only [validCorePre, h1] at hl
    obtain ⟨m, n, p, e1, e2, hm, hn, hp, hdec⟩ := validCore_spec hl
    refine ⟨⟨m, n, p, [], bld⟩, ?_, ?_, rfl⟩
    · simp only [conStructorAux, h1, e1, e2]
    · by_cases hb : 0 < bld.length
      · simp only [Semver.ConvertToString, if_pos hb, List.length_nil, Nat.lt_irrefl,
          if_false]
        rw [hdec]
      · simp only [Semver.ConvertToString, if_neg hb, List.length_nil, Nat.lt_irrefl,
          if_false]
        rw [hdec]
  | some lr =>
    simp only [validCorePre, h1, Bool.and_eq_true] at hl
    obtain ⟨hc, hpre⟩ := hl
    obtain ⟨m, n, p, e1, e2, hm, hn, hp, hdec⟩ := validCore_spec hc
    have hrel : lr.2 ≠ [] := validDotted_ne_nil (by decide) hpre
    have hrelpos : 0 < lr.2.length := List.length_pos.mpr hrel
    have hL : l = lr.1 ++ '-' :: lr.2 := extractor_eq h1
    refine ⟨⟨m, n, p, lr.2, bld⟩, ?_, ?_, rfl⟩
    · simp only [conStructorAux, h1, e1, e2]
    · by_cases hb : 0 < bld.length
      · simp only [Semver.ConvertToString, if_pos hrelpos, if_pos hb]
        rw [hL, hdec]
      · simp only [Semver.ConvertToString, if_pos hrelpos, if_neg hb]
        rw [hL, hdec]

theorem conStructor_valid {s : Str} (h : IsValid s = true) :
    ∃ v, ConStructor s = some v ∧ v.ConvertToString = s := by
  cases h1 : extractor s '+' with
  | none =>
    simp only [IsValid, h1] at h
    obtain ⟨v, hv, hr, _⟩ := @conStructorAux_render _ [] h
    refine ⟨v, ?_, ?_⟩
    · simp only [ConStructor, beforePlus, afterPlus, h1]
      exact hv
    · simpa using hr
  | some lr =>
    simp only [IsValid, h1, Bool.and_eq_true] at h
    obtain ⟨h2, h3⟩ := h
    obtain ⟨v, hv, hr, _⟩ := @conStructorAux_render _ lr.2 h2
    have hbne : lr.2 ≠ [] := validDotted_ne_nil (by decide) h3
    refine ⟨v, ?_, ?_⟩
    · simp only [ConStructor, beforePlus, afterPlus, h1]
      exact hv
    · rw [hr, if_pos (List.length_pos.mpr hbne)]
      exact (extractor_eq h1).symm

theorem conStructorAux_core_fields {ver b1 b2 : Str} {v w : Semver}
    (hv : conStructorAux ver b1 = some v) (hw : conStructorAux ver b2 = some w) :
    v.major = w.major ∧ v.minor = w.minor ∧ v.patch = w.patch ∧ v.pre = w.pre := by
  cases h1 : extractor ver '-' with
  | none =>
    simp only [conStructorAux, h1] at hv hw
    cases h2 : extractor ver '.' with
    | none => simp [h2] at hv
    | some mj =>
      simp only [h2] at hv hw
      cases h3 : extractor mj.2 '.' with
      | none => simp [h3] at hv
      | some mp =>
        simp only [h3, Option.some.injEq] at hv hw
        rw [← hv, ← hw]
        exact ⟨rfl, rfl, rfl, rfl⟩
  | some lr =>
    simp only [conStructorAux, h1] at hv hw
    cases h2 : extractor lr.1 '.' with
    | none => simp [h2] at hv
    | some mj =>
      simp only [h2] at hv hw
      cases h3 : extractor mj.2 '.' with
      | none => simp [h3] at hv
      | some mp =>
        simp only [h3, Option.some.injEq] at hv hw
        rw [← hv, ← hw]
        exact ⟨rfl, rfl, rfl, rfl⟩

/-! Claims, in the order of the claims list -/

/-- C1: the claim says major/minor/patch precedence is decided by numeric
comparison, so `IsNewer("10.0.0", "9.0.0")` should be true.  The code
compares the stored field strings with Go's lexicographic string order,
under which "10" < "9", so it reports "10.0.0" as not newer than "9.0.0"
and "9.0.0" as newer than "10.0.0". -/
theorem claim1_lexicographic_compare :
    IsNewer (str ("10.0.0")) (str ("9.0.0")) = some false ∧
      IsNewer (str ("9.0.0")) (str ("10.0.0")) = some true := by decide

/-- C2: the claim says `Increment("1.3.9", "patch")` returns "1.3.10";
the code's `Increment` body is the stub `return ""`, contradicting the
repository's own `TestIncrement`. -/
theorem claim2_increment_stub :
    Increment (str ("1.3.9")) (str ("patch")) = str ("") ∧ str ("") ≠ str ("1.3.10") := by
  exact ⟨rfl, by decide⟩

/-- C3: with equal major/minor/patch and exactly one pre-release, the
claim says `OlderThan` on (1.0.0-alpha, 1.0.0) returns true.  In the code
the pre-release branch of `OlderThan` is an empty comment stub, so it
returns false; only the `NewerThan` direction (release newer than
pre-release) behaves as claimed. -/
theorem claim3_olderThan_stub :
    (ConStructor (str ("1.0.0-alpha"))).bind
        (fun a => (ConStructor (str ("1.0.0"))).map fun b =>
          (a.OlderThan b, b.NewerThan a)) = some (false, true) := by decide

/-- C4 counterexample: `ConStructor` does not fail with an explicit error
signal on invalid input.  On "1.2" the second `.` extraction takes the
slice `base[:-1]` and panics (`none` in this model); on "1.9." it
silently returns a partially-populated `Semver` with an empty patch
field. -/
theorem claim4_counterexample :
    ConStructor (str ("1.2")) = none ∧
      ConStructor (str ("1.9.")) = some ⟨str ("1"), str ("9"), [], [], []⟩ := by decide

/-- C4 (amended): on every string accepted by `IsValid`, `ConStructor`
succeeds (no delimiter lookup can miss, so no out-of-range slice is
taken); on invalid strings it returns no explicit error signal, and may
panic or return a partially-populated value instead. -/
theorem claim4_parse_valid (s : Str) (h : IsValid s = true) :
    (ConStructor s).isSome = true := by
  obtain ⟨v, hv, _⟩ := conStructor_valid h
  simp [hv]

theorem claim4_witness :
    IsValid (str ("1.2.3")) = true ∧ (ConStructor (str ("1.2.3"))).isSome = true :=
  ⟨by decide, claim4_parse_valid _ (by decide)⟩

/-- C5: parse/render round trip — for every string accepted by
`IsValid`, `ConvertToString` applied to the parsed `Semver` reproduces
the input exactly. -/
theorem claim5_round_trip (s : Str) (h : IsValid s = true) :
    (ConStructor s).map Semver.ConvertToString = some s := by
  obtain ⟨v, hv, hr⟩ := conStructor_valid h
  rw [hv, Option.map_some', hr]

theorem claim5_witness :
    IsValid (str ("1.0.0-alpha.1+build-125.sha-x")) = true ∧
      (ConStructor (str ("1.0.0-alpha.1+build-125.sha-x"))).map Semver.ConvertToString =
        some (str ("1.0.0-alpha.1+build-125.sha-x")) :=
  ⟨by decide, claim5_round_trip _ (by decide)⟩

/-- C6: the claim says a purely numeric pre-release identifier has lower
precedence than an alphanumeric one at the same position ("2" versus
"1a"), so 1.0.0-2 should not be newer than 1.0.0-1a.  The code's
`edgierThan` falls through to plain Go string comparison for the mixed
case, and "2" > "1a" lexicographically, so the numeric side is reported
newer in both directions' comparisons. -/
theorem claim6_mixed_identifier_compare :
    IsNewer (str ("1.0.0-2")) (str ("1.0.0-1a")) = some true ∧
      IsNewer (str ("1.0.0-1a")) (str ("1.0.0-2")) = some false := by decide

/-- C7: when both versions agree on major, minor and patch, both carry
pre-releases, their dot-split identifier lists share the prefix `p`, and
the first identifiers after the shared prefix are distinct valid numeric
identifiers (all digits, no leading zero), `NewerThan` decides by
integer value: it returns true exactly when the left identifier denotes
the larger integer. -/
theorem claim7_numeric_identifiers (a b : Semver) (p : List Str) (e g : Str)
    (es gs : List Str) (hmaj : a.major = b.major) (hmin : a.minor = b.minor)
    (hpat : a.patch = b.patch) (hap : a.pre ≠ []) (hbp : b.pre ≠ [])
    (ha : stringsSplit '.' a.pre = p ++ e :: es)
    (hb : stringsSplit '.' b.pre = p ++ g :: gs)
    (he : isNum e = true) (hg : isNum g = true) (hne : e ≠ g) :
    a.NewerThan b = decide (numVal g < numVal e) := by
  rw [newerThan_of_eq_core hmaj hmin hpat]
  unfold Semver.edgierThan
  rw [if_neg (by simp [List.length_eq_zero, hap, hbp])]
  rw [ha, hb, edgeLoop_append]
  exact edgeLoop_cons_numeric he hg hne

theorem claim7_witness :
    isNum (str ("11")) = true ∧ isNum (str ("2")) = true ∧
      Semver.NewerThan ⟨str ("3"), str ("1"), str ("2"), str ("beta.11"), []⟩
          ⟨str ("3"), str ("1"), str ("2"), str ("beta.2"), []⟩ =
        decide (numVal (str ("2")) < numVal (str ("11"))) :=
  ⟨by decide, by decide,
    claim7_numeric_identifiers ⟨str ("3"), str ("1"), str ("2"), str ("beta.11"), []⟩
      ⟨str ("3"), str ("1"), str ("2"), str ("beta.2"), []⟩ [str ("beta")] (str ("11"))
      (str ("2")) [] [] rfl rfl rfl (by decide) (by decide) (by decide) (by decide)
      (by decide) (by decide) (by decide)⟩

/-- C8: `IsValid` on the spec's vectors — false on every member of the
invalid set, true on "1.0.0-01a" (leading-zero rule only restricts purely
numeric pre-release identifiers), false on "1.0.0-01". -/
theorem claim8_isValid_vectors :
    IsValid (str ("1.09.0")) = false ∧ IsValid (str ("1.a.0")) = false ∧
      IsValid (str ("1.2.3b")) = false ∧ IsValid (str ("a.0.5")) = false ∧
      IsValid (str ("5.4.2.10")) = false ∧ IsValid (str ("1.9")) = false ∧
      IsValid (str ("1.9.")) = false ∧ IsValid (str ("1..")) = false ∧
      IsValid (str ("1.-9.0")) = false ∧ IsValid (str ("-1.9.0")) = false ∧
      IsValid (str ("1.9.-25")) = false ∧ IsValid (str ("1.0.0-01a")) = true ∧
      IsValid (str ("1.0.0-01")) = false := by decide

/-- C9: two valid version strings identical up to their build-metadata
suffix (the same text before the first `+`) parse to versions that are
`EquivalentTo` each other, with `NewerThan` and `OlderThan` false in both
directions, while rendering each preserves its own build suffix. -/
theorem claim9_build_metadata (s t : Str) (hs : IsValid s = true)
    (ht : IsValid t = true) (hbp : beforePlus s = beforePlus t) :
    ∃ v w, ConStructor s = some v ∧ ConStructor t = some w ∧
      v.EquivalentTo w = true ∧ v.NewerThan w = false ∧ v.OlderThan w = false ∧
      w.NewerThan v = false ∧ w.OlderThan v = false ∧
      v.ConvertToString = s ∧ w.ConvertToString = t := by
  obtain ⟨v, hv, hvr⟩ := conStructor_valid hs
  obtain ⟨w, hw, hwr⟩ := conStructor_valid ht
  have hv' : conStructorAux (beforePlus t) (afterPlus s) = some v := by
    rw [← hbp]
    exact hv
  have hw' : conStructorAux (beforePlus t) (afterPlus t) = some w := hw
  obtain ⟨h1, h2, h3, h4⟩ := conStructorAux_core_fields hv' hw'
  have hno : v.NewerThan w = false := by
    rw [newerThan_of_eq_core h1 h2 h3]
    exact edgierThan_of_eq_pre h4
  have hno2 : w.NewerThan v = false := by
    rw [newerThan_of_eq_core h1.symm h2.symm h3.symm]
    exact edgierThan_of_eq_pre h4.symm
  have hol : v.OlderThan w = false := olderThan_of_eq_core h1 h2 h3
  have hol2 : w.OlderThan v = false := olderThan_of_eq_core h1.symm h2.symm h3.symm
  refine ⟨v, w, hv, hw, ?_, hno, hol, hno2, hol2, hvr, hwr⟩
  simp [Semver.EquivalentTo, hno, hol]

theorem claim9_witness :
    ∃ v w, ConStructor (str ("2.0.1")) = some v ∧
      ConStructor (str ("2.0.1+build.125124")) = some w ∧
      v.EquivalentTo w = true ∧ v.NewerThan w = false ∧ v.OlderThan w = false ∧
      w.NewerThan v = false ∧ w.OlderThan v = false ∧
      v.ConvertToString = str ("2.0.1") ∧
      w.ConvertToString = str ("2.0.1+build.125124") :=
  claim9_build_metadata _ _ (by decide) (by decide) (by decide)

/-- C10: `IsNewer` is total over arbitrary input strings: it always
returns a boolean and never panics (`none` never arises), because
`ConStructor` runs only on strings that passed `IsValid`, where every
delimiter lookup of `extractor` succeeds. -/
theorem claim10_isNewer_total (a b : Str) : (IsNewer a b).isSome = true := by
  unfold IsNewer
  by_cases h : (IsValid a && IsValid b) = true
  · rw [if_pos h]
    simp only [Bool.and_eq_true] at h
    obtain ⟨v, hv, _⟩ := conStructor_valid h.1
    obtain ⟨w, hw, _⟩ := conStructor_valid h.2
    rw [hv]
    simp [hw]
  · rw [if_neg h]
    rfl
